import Mathlib

/-!
Verification of the snadders-estimator pipeline (`src/main.py`).

The program builds a Markov transition table for a snakes-and-ladders board
(`get_probabilities`), assembles the linear system for the expected number of
rolls (`make_matrices`), and solves it (`solve`, via `np.linalg.solve`).

Modelling notes:
* Python integers are `Int` (snadder destinations may be negative); tiles that
  index loops are `Nat`.  Probabilities are `ℚ`; every value the program
  produces is a finite sum of `1/dice_size` increments, so rationals model the
  float computation without loss for the properties below.
* The transition dictionary `result` has exactly the keys
  `(i, j)` for `0 ≤ i, j ≤ size`; the write `result[idx, end] += 1/dice_size`
  raises `KeyError` when `(idx, end)` is not such a key.  The builder is
  therefore embedded with `Option`: `none` models the `KeyError`.
* The `while end in snadders` loop of transitive resolution is embedded with
  fuel equal to the number of snadder entries; `snadder_chain_terminates`
  below proves that whenever no snadder cycle is reachable from the start
  tile the loop has reached a fixed point within that many steps, so the
  fuelled function returns exactly the value the loop terminates with.  On a
  run where the Python loop diverges (a reachable cycle under transitive
  resolution) the fuelled function still returns a value, so the embedding
  is faithful only for terminating runs: statements whose conclusion is a
  normal return fix `transitive := false`, where resolution is a single
  total lookup.
* `np.linalg.solve` belongs to numpy, not to this repository; it is modelled
  by its contract: it returns a vector `e` with `A·e = B` (raising on a
  singular system).  `solve` is accordingly embedded as the relation between
  its inputs and its returned scalar.
-/

/-- A transition table: entry `(a, b)` is the probability of moving from tile
`a` to tile `b`.  The Python dict is total on `(0..size)²` with default `0.0`;
the embedding is a total function that is `0` outside the written entries. -/
abbrev Tab := Nat → Nat → ℚ

/-- Lookup in the snadder dictionary (`end in snadders` / `snadders[end]`).
The Python dict is embedded as an association list; duplicate keys do not
arise from dict literals, and lookup takes the first matching pair. -/
def sfind (snadders : List (Int × Int)) (t : Int) : Option Int :=
  (snadders.find? (fun p => p.1 == t)).map (fun p => p.2)

/-- The `while end in snadders: end = snadders[end]` loop, with explicit fuel:
follow the snadder map while the current tile is a key, at most `fuel` times. -/
def chainIter (snadders : List (Int × Int)) : Nat → Int → Int
  | 0, t => t
  | fuel + 1, t =>
    match sfind snadders t with
    | none => t
    | some d => chainIter snadders fuel d

/-- Snadder resolution of a raw landing tile: the transitive branch runs the
`while` loop (fuel `snadders.length` suffices whenever the loop terminates,
see `snadder_chain_terminates`); the non-transitive branch is a single
conditional lookup. -/
def resolve (snadders : List (Int × Int)) (transitive : Bool) (t : Int) : Int :=
  if transitive then chainIter snadders snadders.length t
  else
    match sfind snadders t with
    | none => t
    | some d => d

/-- The final landing tile for a roll: `end = idx + roll`, snadder resolution,
then the overshoot policy (`if end > size: end = idx if exact else size`). -/
def destRaw (size : Nat) (snadders : List (Int × Int)) (transitive exct : Bool)
    (idx roll : Nat) : Int :=
  let t := resolve snadders transitive ((idx : Int) + (roll : Int))
  if (size : Int) < t then (if exct then (idx : Int) else (size : Int)) else t

/-- `result[idx, end] += 1.0 / dice_size`: succeeds exactly when `(idx, end)`
is a key of the table, i.e. both coordinates lie in `0..size`; otherwise the
Python program raises `KeyError`, modelled as `none`. -/
def addEntry (size D idx : Nat) (t : Int) (tab : Tab) : Option Tab :=
  if 0 ≤ t ∧ t ≤ (size : Int) ∧ idx ≤ size then
    some (fun a b => if a = idx ∧ (b : Int) = t then tab a b + 1 / (D : ℚ) else tab a b)
  else none

/-- The inner loop `for roll in range(1, dice_size + 1)`, over an explicit
list of rolls. -/
def runRolls (size D : Nat) (snadders : List (Int × Int)) (transitive exct : Bool)
    (idx : Nat) : List Nat → Tab → Option Tab
  | [], tab => some tab
  | r :: rs, tab =>
    match addEntry size D idx (destRaw size snadders transitive exct idx r) tab with
    | none => none
    | some tab2 => runRolls size D snadders transitive exct idx rs tab2

/-- The outer loop `for idx in range(size)`, over an explicit list of source
tiles. -/
def runIdx (size D : Nat) (snadders : List (Int × Int)) (transitive exct : Bool) :
    List Nat → Tab → Option Tab
  | [], tab => some tab
  | i :: is, tab =>
    match runRolls size D snadders transitive exct i (List.range' 1 D) tab with
    | none => none
    | some tab2 => runIdx size D snadders transitive exct is tab2

/-- `get_probabilities(size, snadders, dice_size, transitive, exact)`: start
from the all-zero table and run both loops.  `none` models the `KeyError`
raised when a resolved landing tile is outside the table's key set. -/
def get_probabilities (size : Nat) (snadders : List (Int × Int)) (dice_size : Nat)
    (transitive exct : Bool) : Option Tab :=
  runIdx size dice_size snadders transitive exct (List.range size) (fun _ _ => 0)

/-- Number of rolls in `l` whose resolved landing tile is `b`. -/
def countDest (size : Nat) (snadders : List (Int × Int)) (transitive exct : Bool)
    (idx : Nat) (l : List Nat) (b : Nat) : Nat :=
  (l.filter (fun r => destRaw size snadders transitive exct idx r == (b : Int))).length

/-- Number of dice faces `r ∈ 1..D` whose resolved landing tile is `b`. -/
def rollsTo (size : Nat) (snadders : List (Int × Int)) (transitive exct : Bool)
    (D idx b : Nat) : Nat :=
  countDest size snadders transitive exct idx (List.range' 1 D) b

/-- The table described by the specification: each of the `D` equiprobable
rolls from a non-absorbing tile contributes mass `1/D` to its resolved
landing tile; untouched entries, and the whole absorbing row, are `0`. -/
def specTable (size : Nat) (snadders : List (Int × Int)) (D : Nat)
    (transitive exct : Bool) : Tab :=
  fun a b =>
    if a < size then (rollsTo size snadders transitive exct D a b : ℚ) / (D : ℚ) else 0

/-- `make_matrices(probs, size)`: `A[i,j] = probs[i,j]` with `1` subtracted on
the diagonal; `B = -1` everywhere except `B[size] = 0`. -/
def make_matrices (probs : Tab) (size : Nat) : (Nat → Nat → ℚ) × (Nat → ℚ) :=
  (fun i j => if i = j then probs i j - 1 else probs i j,
   fun i => if i = size then 0 else -1)

/-- `e` solves the assembled `(size+1) × (size+1)` system `A·e = B`. -/
def IsSolution (size : Nat) (A : Nat → Nat → ℚ) (B : Nat → ℚ) (e : Nat → ℚ) : Prop :=
  ∀ i, i < size + 1 → (∑ j ∈ Finset.range (size + 1), A i j * e j) = B i

/-- `solve(board_size, snadders, dice_size)` calls `get_probabilities` with
its default flags (`transitive=False`, `exact=False`), assembles the system,
and returns `solution[0]`.  With `np.linalg.solve` modelled by its contract
(it returns a solution of `A·e = B`), `solve` is the relation between the
inputs and the returned scalar `x`. -/
def solve (board_size : Nat) (snadders : List (Int × Int)) (dice_size : Nat)
    (x : ℚ) : Prop :=
  ∃ tab e, get_probabilities board_size snadders dice_size false false = some tab ∧
    IsSolution board_size (make_matrices tab board_size).1 (make_matrices tab board_size).2 e ∧
    x = e 0

/-- A snadder cycle is reachable from `t`: some iterate of the resolution
loop started at `t` is a key to which a further positive number of snadder
steps returns.  A shortest cycle closes within `snadders.length` steps, so
bounding the return length loses no generality. -/
def CycleFrom (snadders : List (Int × Int)) (t : Int) : Prop :=
  ∃ m n, (sfind snadders (chainIter snadders m t)).isSome ∧
    n < snadders.length ∧
    chainIter snadders (n + 1) (chainIter snadders m t) = chainIter snadders m t

/-- Concrete table used to instantiate theorems: the table of the board with
`size = 1`, no snadders, a one-sided dice, and default flags. -/
def tabW : Tab := fun a b => if a = 0 ∧ (b : Int) = 1 then 1 else 0

/-- Concrete solution vector of the assembled system for `tabW`. -/
def eW : Nat → ℚ := fun i => if i = 0 then 1 else 0

lemma countDest_nil (size : Nat) (s : List (Int × Int)) (tr exct : Bool) (idx b : Nat) :
    countDest size s tr exct idx [] b = 0 := rfl

lemma countDest_cons (size : Nat) (s : List (Int × Int)) (tr exct : Bool) (idx r : Nat)
    (rs : List Nat) (b : Nat) :
    countDest size s tr exct idx (r :: rs) b =
      (if destRaw size s tr exct idx r = (b : Int) then 1 else 0) +
        countDest size s tr exct idx rs b := by
  by_cases h : destRaw size s tr exct idx r = (b : Int)
  · simp [countDest, List.filter_cons, h]
    omega
  · simp [countDest, List.filter_cons, h]

lemma runRolls_some_char (size D : Nat) (s : List (Int × Int)) (tr exct : Bool)
    (idx : Nat) (l : List Nat) :
    ∀ tab tab' : Tab,
      runRolls size D s tr exct idx l tab = some tab' →
      ∀ a b, tab' a b = tab a b +
        (if a = idx then (countDest size s tr exct idx l b : ℚ) / (D : ℚ) else 0) := by
  induction l with
  | nil =>
    intro tab tab' h a b
    rw [runRolls] at h
    cases h
    simp [countDest_nil]
  | cons r rs ih =>
    intro tab tab' h a b
    rw [runRolls] at h
    split at h
    · cases h
    · rename_i tab2 hAdd
      have hrec := ih tab2 tab' h a b
      unfold addEntry at hAdd
      split at hAdd
      · rename_i hcond
        injection hAdd with htab2
        have htab2ab : tab2 a b =
            if a = idx ∧ (b : Int) = destRaw size s tr exct idx r then
              tab a b + 1 / (D : ℚ) else tab a b := by
          rw [← htab2]
        rw [hrec, htab2ab, countDest_cons]
        by_cases ha : a = idx
        · subst ha
          by_cases hb : (b : Int) = destRaw size s tr exct a r
          · rw [if_pos ⟨rfl, hb⟩, if_pos rfl, if_pos rfl, if_pos hb.symm]
            push_cast
            ring
          · rw [if_neg (fun hc => hb hc.2), if_pos rfl, if_pos rfl,
              if_neg (fun hc => hb hc.symm)]
            simp
        · rw [if_neg (fun hc => ha hc.1), if_neg ha, if_neg ha]
      · cases hAdd

lemma runRolls_some_bounds (size D : Nat) (s : List (Int × Int)) (tr exct : Bool)
    (idx : Nat) (l : List Nat) :
    ∀ tab tab' : Tab,
      runRolls size D s tr exct idx l tab = some tab' →
      ∀ r ∈ l, 0 ≤ destRaw size s tr exct idx r ∧
        destRaw size s tr exct idx r ≤ (size : Int) := by
  induction l with
  | nil => intro tab tab' _ r hr; cases hr
  | cons r rs ih =>
    intro tab tab' h x hx
    rw [runRolls] at h
    split at h
    · cases h
    · rename_i tab2 hAdd
      unfold addEntry at hAdd
      split at hAdd
      · rename_i hcond
        rcases List.mem_cons.mp hx with hx | hx
        · subst hx; exact ⟨hcond.1, hcond.2.1⟩
        · exact ih tab2 tab' h x hx
      · cases hAdd

lemma runIdx_some_char (size D : Nat) (s : List (Int × Int)) (tr exct : Bool)
    (l : List Nat) :
    l.Nodup →
    ∀ tab tab' : Tab,
      runIdx size D s tr exct l tab = some tab' →
      ∀ a b, tab' a b = tab a b +
        (if a ∈ l then (rollsTo size s tr exct D a b : ℚ) / (D : ℚ) else 0) := by
  induction l with
  | nil =>
    intro _ tab tab' h a b
    rw [runIdx] at h
    cases h
    simp
  | cons i is ih =>
    intro hnd tab tab' h a b
    rw [runIdx] at h
    split at h
    · cases h
    · rename_i tab2 hRR
      obtain ⟨hni, hnd'⟩ := List.nodup_cons.mp hnd
      have hchar := ih hnd' tab2 tab' h a b
      have h1 := runRolls_some_char size D s tr exct i (List.range' 1 D) tab tab2 hRR a b
      rw [hchar, h1]
      by_cases ha : a = i
      · subst ha
        have hais : a ∉ is := hni
        simp [hais, rollsTo]
      · simp [ha, List.mem_cons]

lemma runIdx_some_bounds (size D : Nat) (s : List (Int × Int)) (tr exct : Bool)
    (l : List Nat) :
    ∀ tab tab' : Tab,
      runIdx size D s tr exct l tab = some tab' →
      ∀ i ∈ l, ∀ r ∈ List.range' 1 D,
        0 ≤ destRaw size s tr exct i r ∧ destRaw size s tr exct i r ≤ (size : Int) := by
  induction l with
  | nil => intro tab tab' _ i hi; cases hi
  | cons i is ih =>
    intro tab tab' h x hx
    rw [runIdx] at h
    split at h
    · cases h
    · rename_i tab2 hRR
      rcases List.mem_cons.mp hx with hx | hx
      · subst hx; exact runRolls_some_bounds size D s tr exct x (List.range' 1 D) tab tab2 hRR
      · exact ih tab2 tab' h x hx

lemma get_probabilities_some_char (size D : Nat) (s : List (Int × Int)) (tr exct : Bool)
    (tab : Tab) (h : get_probabilities size s D tr exct = some tab) (a b : Nat) :
    tab a b = specTable size s D tr exct a b := by
  have hchar := runIdx_some_char size D s tr exct (List.range size) (List.nodup_range size)
    (fun _ _ => 0) tab h a b
  simpa [specTable, List.mem_range] using hchar

lemma get_probabilities_some_bounds (size D : Nat) (s : List (Int × Int)) (tr exct : Bool)
    (tab : Tab) (h : get_probabilities size s D tr exct = some tab) :
    ∀ idx, idx < size → ∀ r ∈ List.range' 1 D,
      0 ≤ destRaw size s tr exct idx r ∧ destRaw size s tr exct idx r ≤ (size : Int) := by
  intro idx hidx r hr
  exact runIdx_some_bounds size D s tr exct (List.range size) (fun _ _ => 0) tab h idx
    (List.mem_range.mpr hidx) r hr

lemma gp_one : get_probabilities 1 [] 1 false false = some tabW := by
  have h : get_probabilities 1 [] 1 false false =
      some (fun (a b : Nat) =>
        if a = 0 ∧ (b : Int) = destRaw 1 [] false false 0 1 then
          (0 : ℚ) + 1 / ((1 : Nat) : ℚ) else 0) := rfl
  rw [h]
  congr 1
  funext a b
  have h1 : destRaw 1 [] false false 0 1 = 1 := rfl
  rw [h1]
  norm_num [tabW]

lemma sfind_eq_some (s : List (Int × Int)) (t d : Int) (h : sfind s t = some d) :
    ∃ p ∈ s, p.1 = t ∧ p.2 = d := by
  unfold sfind at h
  cases hf : s.find? (fun p => p.1 == t) with
  | none => rw [hf] at h; cases h
  | some q =>
    rw [hf] at h
    refine ⟨q, List.mem_of_find?_eq_some hf, ?_, ?_⟩
    · have hpt := List.find?_some hf
      simpa using hpt
    · simpa using h

lemma chainIter_nonneg (s : List (Int × Int)) (hvals : ∀ p ∈ s, 0 ≤ p.2) :
    ∀ (n : Nat) (t : Int), 0 ≤ t → 0 ≤ chainIter s n t := by
  intro n
  induction n with
  | zero => intro t ht; exact ht
  | succ n ih =>
    intro t ht
    rw [chainIter]
    cases hf : sfind s t with
    | none => exact ht
    | some d =>
      obtain ⟨p, hp, _, hpd⟩ := sfind_eq_some s t d hf
      exact ih d (hpd ▸ hvals p hp)

lemma resolve_nonneg (s : List (Int × Int)) (tr : Bool) (t : Int)
    (hvals : ∀ p ∈ s, 0 ≤ p.2) (ht : 0 ≤ t) : 0 ≤ resolve s tr t := by
  unfold resolve
  split
  · exact chainIter_nonneg s hvals s.length t ht
  · split
    · exact ht
    · rename_i d hf
      obtain ⟨p, hp, _, hpd⟩ := sfind_eq_some s t d hf
      exact hpd ▸ hvals p hp

lemma destRaw_def (size : Nat) (s : List (Int × Int)) (tr exct : Bool) (idx roll : Nat) :
    destRaw size s tr exct idx roll =
      if (size : Int) < resolve s tr ((idx : Int) + (roll : Int)) then
        (if exct then (idx : Int) else (size : Int))
      else resolve s tr ((idx : Int) + (roll : Int)) := rfl

lemma destRaw_bounds_of_nonneg (size : Nat) (s : List (Int × Int)) (tr exct : Bool)
    (idx roll : Nat) (hidx : idx ≤ size) (hvals : ∀ p ∈ s, 0 ≤ p.2) :
    0 ≤ destRaw size s tr exct idx roll ∧ destRaw size s tr exct idx roll ≤ (size : Int) := by
  rw [destRaw_def]
  have h0 : 0 ≤ resolve s tr ((idx : Int) + (roll : Int)) :=
    resolve_nonneg s tr _ hvals (by positivity)
  split
  · split
    · constructor <;> [positivity; omega]
    · constructor <;> omega
  · rename_i hle
    exact ⟨h0, by omega⟩

lemma runRolls_some_of_bounds (size D : Nat) (s : List (Int × Int)) (tr exct : Bool)
    (idx : Nat) (hidx : idx ≤ size) (l : List Nat)
    (hb : ∀ r ∈ l, 0 ≤ destRaw size s tr exct idx r ∧
      destRaw size s tr exct idx r ≤ (size : Int)) :
    ∀ tab : Tab, ∃ tab', runRolls size D s tr exct idx l tab = some tab' := by
  induction l with
  | nil => intro tab; exact ⟨tab, rfl⟩
  | cons r rs ih =>
    intro tab
    have hr := hb r (List.mem_cons_self r rs)
    have hAdd : addEntry size D idx (destRaw size s tr exct idx r) tab =
        some (fun (a b : Nat) =>
          if a = idx ∧ (b : Int) = destRaw size s tr exct idx r then
            tab a b + 1 / (D : ℚ) else tab a b) := by
      unfold addEntry
      rw [if_pos ⟨hr.1, hr.2, hidx⟩]
    obtain ⟨tab', htab'⟩ := ih (fun x hx => hb x (List.mem_cons_of_mem r hx)) _
    exact ⟨tab', by rw [runRolls, hAdd]; exact htab'⟩

lemma runIdx_some_of_bounds (size D : Nat) (s : List (Int × Int)) (tr exct : Bool)
    (l : List Nat) (hl : ∀ i ∈ l, i ≤ size)
    (hb : ∀ i ∈ l, ∀ r ∈ List.range' 1 D, 0 ≤ destRaw size s tr exct i r ∧
      destRaw size s tr exct i r ≤ (size : Int)) :
    ∀ tab : Tab, ∃ tab', runIdx size D s tr exct l tab = some tab' := by
  induction l with
  | nil => intro tab; exact ⟨tab, rfl⟩
  | cons i is ih =>
    intro tab
    obtain ⟨tab2, htab2⟩ := runRolls_some_of_bounds size D s tr exct i
      (hl i (List.mem_cons_self i is)) (List.range' 1 D)
      (hb i (List.mem_cons_self i is)) tab
    obtain ⟨tab', htab'⟩ := ih (fun x hx => hl x (List.mem_cons_of_mem i hx))
      (fun x hx => hb x (List.mem_cons_of_mem i hx)) tab2
    exact ⟨tab', by rw [runIdx, htab2]; exact htab'⟩

lemma get_probabilities_some_of_nonneg (size D : Nat) (s : List (Int × Int))
    (tr exct : Bool) (hvals : ∀ p ∈ s, 0 ≤ p.2) :
    ∃ tab, get_probabilities size s D tr exct = some tab := by
  unfold get_probabilities
  exact runIdx_some_of_bounds size D s tr exct (List.range size)
    (fun i hi => le_of_lt (List.mem_range.mp hi))
    (fun i hi r _ =>
      destRaw_bounds_of_nonneg size s tr exct i r
        (le_of_lt (List.mem_range.mp hi)) hvals) _

lemma countDest_mul_sum (size : Nat) (s : List (Int × Int)) (tr exct : Bool) (idx : Nat)
    (e : Nat → ℚ) (l : List Nat)
    (hb : ∀ r ∈ l, 0 ≤ destRaw size s tr exct idx r ∧
      destRaw size s tr exct idx r ≤ (size : Int)) :
    ∑ b ∈ Finset.range (size + 1), (countDest size s tr exct idx l b : ℚ) * e b
      = (l.map (fun r => e (destRaw size s tr exct idx r).toNat)).sum := by
  induction l with
  | nil => simp [countDest_nil]
  | cons r rs ih =>
    have hr := hb r (List.mem_cons_self r rs)
    have hmem : (destRaw size s tr exct idx r).toNat ∈ Finset.range (size + 1) := by
      rw [Finset.mem_range]; omega
    have step : ∀ b ∈ Finset.range (size + 1),
        ((countDest size s tr exct idx (r :: rs) b : ℚ)) * e b
          = (if b = (destRaw size s tr exct idx r).toNat then (1 : ℚ) else 0) * e b
            + (countDest size s tr exct idx rs b : ℚ) * e b := by
      intro b _
      rw [countDest_cons]
      by_cases hc : destRaw size s tr exct idx r = (b : Int)
      · rw [if_pos hc, if_pos (by omega)]
        push_cast
        ring
      · rw [if_neg hc, if_neg (by omega)]
        push_cast
        ring
    rw [Finset.sum_congr rfl step, Finset.sum_add_distrib,
      ih (fun x hx => hb x (List.mem_cons_of_mem r hx))]
    have hpick : ∑ b ∈ Finset.range (size + 1),
        (if b = (destRaw size s tr exct idx r).toNat then (1 : ℚ) else 0) * e b
          = e (destRaw size s tr exct idx r).toNat := by
      rw [Finset.sum_congr rfl
        (fun b _ => by rw [ite_mul, one_mul, zero_mul])]
      rw [Finset.sum_ite_eq' (Finset.range (size + 1)) _ e, if_pos hmem]
    rw [hpick]
    simp

lemma isSolution_row (size : Nat) (tab : Tab) (e : Nat → ℚ)
    (hsol : IsSolution size (make_matrices tab size).1 (make_matrices tab size).2 e)
    (i : Nat) (hi : i < size + 1) :
    (∑ j ∈ Finset.range (size + 1), tab i j * e j) - e i = if i = size then 0 else -1 := by
  have h := hsol i hi
  have hA : ∀ j ∈ Finset.range (size + 1),
      (make_matrices tab size).1 i j * e j
        = tab i j * e j - (if i = j then e j else 0) := by
    intro j _
    by_cases hij : i = j
    · subst hij
      simp [make_matrices]
      try ring
    · simp [make_matrices, hij]
  rw [Finset.sum_congr rfl hA, Finset.sum_sub_distrib,
    Finset.sum_ite_eq (Finset.range (size + 1)) i e,
    if_pos (Finset.mem_range.mpr hi)] at h
  simpa [make_matrices] using h

lemma solution_absorbing (size D : Nat) (s : List (Int × Int)) (tr exct : Bool)
    (tab : Tab) (e : Nat → ℚ) (htab : get_probabilities size s D tr exct = some tab)
    (hsol : IsSolution size (make_matrices tab size).1 (make_matrices tab size).2 e) :
    e size = 0 := by
  have hrow := isSolution_row size tab e hsol size (by omega)
  have hz : (∑ j ∈ Finset.range (size + 1), tab size j * e j) = 0 := by
    apply Finset.sum_eq_zero
    intro j _
    rw [get_probabilities_some_char size D s tr exct tab htab size j]
    simp [specTable]
  rw [hz, if_pos rfl] at hrow
  linarith

lemma solution_row_eq (size D : Nat) (s : List (Int × Int)) (tr exct : Bool) (tab : Tab)
    (e : Nat → ℚ) (htab : get_probabilities size s D tr exct = some tab)
    (hsol : IsSolution size (make_matrices tab size).1 (make_matrices tab size).2 e)
    (i : Nat) (hi : i < size) :
    e i = 1 + ((List.range' 1 D).map
      (fun r => e (destRaw size s tr exct i r).toNat)).sum / (D : ℚ) := by
  have hrow := isSolution_row size tab e hsol i (by omega)
  rw [if_neg (by omega)] at hrow
  have hchar : ∀ j ∈ Finset.range (size + 1), tab i j * e j
      = (countDest size s tr exct i (List.range' 1 D) j : ℚ) * e j / (D : ℚ) := by
    intro j _
    rw [get_probabilities_some_char size D s tr exct tab htab i j]
    simp only [specTable, if_pos hi, rollsTo]
    ring
  rw [Finset.sum_congr rfl hchar, ← Finset.sum_div,
    countDest_mul_sum size s tr exct i e (List.range' 1 D)
      (get_probabilities_some_bounds size D s tr exct tab htab i hi)] at hrow
  linarith

lemma resolve_nil (tr : Bool) (t : Int) : resolve [] tr t = t := by
  cases tr <;> rfl

lemma destRaw_empty (size : Nat) (tr : Bool) (i r : Nat) :
    destRaw size [] tr false i r = ((min (i + r) size : Nat) : Int) := by
  rw [destRaw_def, resolve_nil]
  simp only [Bool.false_eq_true, if_false]
  split <;> rename_i h <;> push_cast <;> omega

lemma destRaw_empty_toNat (size : Nat) (tr : Bool) (i r : Nat) :
    (destRaw size [] tr false i r).toNat = min (i + r) size := by
  rw [destRaw_empty]; omega

lemma countDest_le_length (size : Nat) (s : List (Int × Int)) (tr exct : Bool)
    (idx : Nat) (l : List Nat) (b : Nat) :
    countDest size s tr exct idx l b ≤ l.length :=
  List.length_filter_le _ _

lemma range'_map_sum (D : Nat) (f : Nat → ℚ) :
    ((List.range' 1 D).map f).sum = ∑ r ∈ Finset.Icc 1 D, f r := by
  induction D with
  | zero => simp
  | succ D ih =>
    rw [List.range'_concat, List.map_append, List.sum_append, ih,
      Finset.sum_Icc_succ_top (by omega)]
    simp [Nat.add_comm]

lemma row_sum_one (size D : Nat) (s : List (Int × Int)) (tr exct : Bool) (tab : Tab)
    (hD : 1 ≤ D) (htab : get_probabilities size s D tr exct = some tab)
    (a : Nat) (ha : a < size) :
    ∑ b ∈ Finset.range (size + 1), tab a b = 1 := by
  have hchar : ∀ b ∈ Finset.range (size + 1),
      tab a b = (countDest size s tr exct a (List.range' 1 D) b : ℚ) / (D : ℚ) := by
    intro b _
    rw [get_probabilities_some_char size D s tr exct tab htab a b]
    simp [specTable, ha, rollsTo]
  have htot : ∑ b ∈ Finset.range (size + 1),
      (countDest size s tr exct a (List.range' 1 D) b : ℚ) = (D : ℚ) := by
    have h := countDest_mul_sum size s tr exct a (fun _ => 1) (List.range' 1 D)
      (get_probabilities_some_bounds size D s tr exct tab htab a ha)
    simpa using h
  rw [Finset.sum_congr rfl hchar, ← Finset.sum_div, htot,
    div_self (by exact_mod_cast (by omega : D ≠ 0) : (D : ℚ) ≠ 0)]

lemma entry_in_unit_interval (size D : Nat) (s : List (Int × Int)) (tr exct : Bool)
    (tab : Tab) (hD : 1 ≤ D) (htab : get_probabilities size s D tr exct = some tab)
    (a b : Nat) : 0 ≤ tab a b ∧ tab a b ≤ 1 := by
  rw [get_probabilities_some_char size D s tr exct tab htab a b]
  unfold specTable
  split
  · constructor
    · positivity
    · rw [div_le_one (by exact_mod_cast by omega : (0 : ℚ) < (D : ℚ))]
      have hle : rollsTo size s tr exct D a b ≤ D := by
        have h1 := countDest_le_length size s tr exct a (List.range' 1 D) b
        simpa [rollsTo] using h1
      exact_mod_cast hle
  · exact ⟨le_rfl, zero_le_one⟩

lemma chainIter_stall (s : List (Int × Int)) (t : Int) (h : sfind s t = none) :
    ∀ n, chainIter s n t = t := by
  intro n
  cases n with
  | zero => rfl
  | succ n => rw [chainIter, h]

lemma chainIter_add (s : List (Int × Int)) :
    ∀ (m n : Nat) (t : Int), chainIter s (m + n) t = chainIter s n (chainIter s m t) := by
  intro m
  induction m with
  | zero => intro n t; rw [Nat.zero_add]; rfl
  | succ m ih =>
    intro n t
    cases hf : sfind s t with
    | none => simp [chainIter_stall s t hf]
    | some d =>
      have hL : chainIter s (m + 1 + n) t = chainIter s (m + n) d := by
        rw [show m + 1 + n = (m + n) + 1 from by omega, chainIter, hf]
      have hR : chainIter s (m + 1) t = chainIter s m d := by rw [chainIter, hf]
      rw [hL, hR, ih n d]

lemma chainIter_isSome_mono (s : List (Int × Int)) (t : Int) (m n : Nat) (hmn : m ≤ n)
    (h : (sfind s (chainIter s n t)).isSome) : (sfind s (chainIter s m t)).isSome := by
  by_contra hc
  have hnone : sfind s (chainIter s m t) = none := Option.not_isSome_iff_eq_none.mp hc
  have heq : chainIter s n t = chainIter s m t := by
    rw [show n = m + (n - m) from by omega, chainIter_add, chainIter_stall _ _ hnone]
  rw [heq, hnone] at h
  cases h

lemma chain_repeat_cycleFrom (s : List (Int × Int)) (t : Int)
    (hs : ∀ m, m ≤ s.length → (sfind s (chainIter s m t)).isSome) :
    ∀ i j, i < j → j ≤ s.length → chainIter s i t = chainIter s j t → CycleFrom s t := by
  intro i j hij hj he
  refine ⟨i, j - i - 1, hs i (by omega), by omega, ?_⟩
  have hcyc : chainIter s (j - i) (chainIter s i t) = chainIter s j t := by
    rw [← chainIter_add, show i + (j - i) = j from by omega]
  rw [show j - i - 1 + 1 = j - i from by omega, hcyc, ← he]

lemma not_cycleFrom_of_stall (s : List (Int × Int)) (t : Int)
    (h : sfind s t = none) : ¬ CycleFrom s t := by
  rintro ⟨m, n, hsome, _, _⟩
  rw [chainIter_stall s t h m, h] at hsome
  cases hsome

/-- Claim C1: for every board size `N ≥ 1`, dice face count `D ≥ 1`, snadder
map and flags, `get_probabilities` returns the table in which each roll
`r ∈ 1..D` from each source `s ∈ 0..N-1` contributes mass `1/D` to the entry
of its resolved landing tile (raw tile `s + r`, then snadder resolution, then
the overshoot policy), and entries never touched this way are `0`. -/
theorem get_probabilities_characterization (size D : Nat) (s : List (Int × Int))
    (tr exct : Bool) (tab : Tab) (hN : 1 ≤ size) (hD : 1 ≤ D)
    (htab : get_probabilities size s D tr exct = some tab) :
    ∀ a b, tab a b = specTable size s D tr exct a b := fun a b =>
  get_probabilities_some_char size D s tr exct tab htab a b

theorem get_probabilities_characterization_witness :
    tabW 0 1 = specTable 1 [] 1 false false 0 1 :=
  get_probabilities_characterization 1 1 [] false false tabW le_rfl le_rfl gp_one 0 1

/-- Claim C2: for every transition table produced by `get_probabilities` and
board size `N`, `make_matrices` returns `A` with `A[i,j] = P(i,j)` off the
diagonal and `A[i,i] = P(i,i) - 1`, and `B` with `B[i] = -1` except
`B[N] = 0`. -/
theorem make_matrices_entries (size D : Nat) (s : List (Int × Int)) (tr exct : Bool)
    (probs : Tab) (htab : get_probabilities size s D tr exct = some probs)
    (i j : Nat) (hi : i ≤ size) (hj : j ≤ size) :
    ((i ≠ j → (make_matrices probs size).1 i j = probs i j) ∧
      (make_matrices probs size).1 i i = probs i i - 1) ∧
    ((i ≠ size → (make_matrices probs size).2 i = -1) ∧
      (make_matrices probs size).2 size = 0) := by
  refine ⟨⟨fun hij => ?_, ?_⟩, fun his => ?_, ?_⟩ <;> simp [make_matrices, *]

theorem make_matrices_entries_witness :
    ((0 ≠ 1 → (make_matrices tabW 1).1 0 1 = tabW 0 1) ∧
      (make_matrices tabW 1).1 0 0 = tabW 0 0 - 1) ∧
    ((0 ≠ 1 → (make_matrices tabW 1).2 0 = -1) ∧ (make_matrices tabW 1).2 1 = 0) :=
  make_matrices_entries 1 1 [] false false tabW gp_one 0 1 (by omega) (by omega)

/-- Claim C3: whenever `get_probabilities` returns a table (`D ≥ 1`), every
non-absorbing row `s ∈ 0..N-1` sums to exactly `1` over the `N+1` tiles, and
every entry lies in `[0, 1]`. -/
theorem transition_row_sums (size D : Nat) (s : List (Int × Int)) (tr exct : Bool)
    (tab : Tab) (hD : 1 ≤ D) (htab : get_probabilities size s D tr exct = some tab) :
    (∀ a, a < size → ∑ b ∈ Finset.range (size + 1), tab a b = 1) ∧
    (∀ a b, 0 ≤ tab a b ∧ tab a b ≤ 1) :=
  ⟨fun a ha => row_sum_one size D s tr exct tab hD htab a ha,
   fun a b => entry_in_unit_interval size D s tr exct tab hD htab a b⟩

theorem transition_row_sums_witness :
    (∑ b ∈ Finset.range 2, tabW 0 b = 1) ∧ (0 ≤ tabW 0 0 ∧ tabW 0 0 ≤ 1) :=
  ⟨(transition_row_sums 1 1 [] false false tabW le_rfl gp_one).1 0 (by omega),
   (transition_row_sums 1 1 [] false false tabW le_rfl gp_one).2 0 0⟩

/-- Claim C4 counterexample: the snadder `{1: 9}` on a board of size `3` has a
destination outside the valid tile range `1..size-1`, yet `get_probabilities`
does not fail: the overshoot policy clamps the resolved tile, so a table is
silently produced. -/
theorem out_of_range_value_still_builds :
    ¬ (1 ≤ (9 : Int) ∧ (9 : Int) ≤ 3 - 1) ∧
    (get_probabilities 3 [((1 : Int), 9)] 1 false false).isSome = true := by
  constructor
  · decide
  · decide

/-- Claim C4 (amended): an out-of-range snadder key or value does not make
table construction fail: keys outside the board are ignored (or followed when
a raw landing tile reaches them) and destinations above the board are clamped
by the overshoot policy, which runs after resolution.  With the
non-transitive resolution the counterexample exercises (a single, total
lookup), a bounds error can only come from a negative resolved tile: whenever
every snadder destination is nonnegative the builder silently returns a
table.  (Transitive resolution is not covered here: on a reachable cycle the
program diverges instead of returning.) -/
theorem construction_fails_only_on_negative (size D : Nat) (s : List (Int × Int))
    (exct : Bool) (hvals : ∀ p ∈ s, 0 ≤ p.2) :
    ∃ tab, get_probabilities size s D false exct = some tab :=
  get_probabilities_some_of_nonneg size D s false exct hvals

theorem construction_fails_only_on_negative_witness :
    ∃ tab, get_probabilities 3 [((1 : Int), 9)] 1 false false = some tab :=
  construction_fails_only_on_negative 3 1 [((1 : Int), 9)] false (by decide)

/-- Claim C7: for every table returned by `get_probabilities`, row `N` of the
assembled matrix `A` is all zeros except `A[N,N] = -1`, and `B[N] = 0`: the
absorbing row of the transition table is all zeros and assembly only
subtracts `1` on its diagonal, so the last equation reads `e[N] = 0`. -/
theorem absorbing_row_identity (size D : Nat) (s : List (Int × Int)) (tr exct : Bool)
    (tab : Tab) (htab : get_probabilities size s D tr exct = some tab) :
    (∀ j, j ≤ size →
      (make_matrices tab size).1 size j = if j = size then -1 else 0) ∧
    (make_matrices tab size).2 size = 0 := by
  constructor
  · intro j hj
    have hz : tab size j = 0 := by
      rw [get_probabilities_some_char size D s tr exct tab htab size j]
      simp [specTable]
    by_cases hjs : j = size
    · subst hjs; simp [make_matrices, hz]
    · simp [make_matrices, hz, hjs, Ne.symm hjs]
  · simp [make_matrices]

theorem absorbing_row_identity_witness :
    (make_matrices tabW 1).1 1 0 = 0 ∧ (make_matrices tabW 1).2 1 = 0 := by
  have h := absorbing_row_identity 1 1 [] false false tabW gp_one
  refine ⟨?_, h.2⟩
  have h0 := h.1 0 (by omega)
  simpa using h0

/-- Claim C8: with the transitivity flag off, the snadder map is applied at
most once per roll: when the raw landing tile `idx + roll` is a snadder
source, the player moves to its destination `d` and stops there, even when
`d` is itself a snadder source. -/
theorem no_chaining_without_transitivity (size : Nat) (s : List (Int × Int))
    (exct : Bool) (idx roll : Nat) (d d' : Int)
    (h : sfind s ((idx : Int) + (roll : Int)) = some d)
    (h' : sfind s d = some d') (hd : d ≤ (size : Int)) :
    destRaw size s false exct idx roll = d := by
  rw [destRaw_def]
  have hres : resolve s false ((idx : Int) + (roll : Int)) = d := by
    unfold resolve
    simp [h]
  rw [hres, if_neg (by omega)]

theorem no_chaining_without_transitivity_witness :
    destRaw 9 [((2 : Int), 3), ((3 : Int), 4)] false false 1 1 = 3 :=
  no_chaining_without_transitivity 9 [((2 : Int), 3), ((3 : Int), 4)] false 1 1 3 4
    (by decide) (by decide) (by decide)

/-- Claim C10: `solve(board_size, snadders, dice_size)` runs the pipeline
with the default flags of `get_probabilities` — transitive resolution
disabled and the overshoot-still-wins policy — and returns entry `0` of a
solution of the assembled system; it never enables `transitive` or
`exact`. -/
theorem solve_uses_default_flags (n : Nat) (s : List (Int × Int)) (d : Nat) (x : ℚ) :
    solve n s d x ↔ ∃ tab e, get_probabilities n s d false false = some tab ∧
      IsSolution n (make_matrices tab n).1 (make_matrices tab n).2 e ∧ x = e 0 :=
  Iff.rfl

lemma chain_terminates_of_no_cycle (s : List (Int × Int)) (t : Int)
    (h : ¬ CycleFrom s t) : sfind s (chainIter s s.length t) = none := by
  by_contra hc
  have hsome : (sfind s (chainIter s s.length t)).isSome :=
    Option.ne_none_iff_isSome.mp hc
  have hs : ∀ m, m ≤ s.length → (sfind s (chainIter s m t)).isSome := fun m hm =>
    chainIter_isSome_mono s t m s.length hm hsome
  have hmaps : ∀ m ∈ Finset.range (s.length + 1),
      chainIter s m t ∈ (s.map Prod.fst).toFinset := by
    intro m hm
    obtain ⟨d, hd⟩ := Option.isSome_iff_exists.mp
      (hs m (by have := Finset.mem_range.mp hm; omega))
    obtain ⟨p, hp, hp1, _⟩ := sfind_eq_some s _ d hd
    rw [List.mem_toFinset]
    exact List.mem_map.mpr ⟨p, hp, hp1⟩
  have hcard : ((s.map Prod.fst).toFinset).card < (Finset.range (s.length + 1)).card := by
    have h1 : ((s.map Prod.fst).toFinset).card ≤ s.length := by
      calc ((s.map Prod.fst).toFinset).card
          ≤ (s.map Prod.fst).length := List.toFinset_card_le _
        _ = s.length := List.length_map _ _
    rw [Finset.card_range]
    omega
  obtain ⟨m₁, hm₁, m₂, hm₂, hne, heq⟩ :=
    Finset.exists_ne_map_eq_of_card_lt_of_maps_to hcard hmaps
  rcases Nat.lt_or_ge m₁ m₂ with hlt | hge
  · exact h (chain_repeat_cycleFrom s t hs m₁ m₂ hlt
      (by have := Finset.mem_range.mp hm₂; omega) heq)
  · have hlt : m₂ < m₁ := by omega
    exact h (chain_repeat_cycleFrom s t hs m₂ m₁ hlt
      (by have := Finset.mem_range.mp hm₁; omega) heq.symm)

/-- Claim C9: the builder's only possible divergence is the documented
transitive-cycle edge case.  With the transitivity flag off, resolution is a
single lookup and always terminates; with it on, whenever no snadder cycle is
reachable from any raw landing tile `idx + roll` that the builder resolves,
the `while end in snadders` loop terminates from each of those tiles: within
`snadders.length` iterations the current tile is no longer a key, so the loop
exits with exactly the value the fuelled embedding returns.  A map may well
contain a cycle that no raw landing tile reaches; the hypothesis, like the
claim, only excludes reachable ones. -/
theorem snadder_chain_terminates (size D : Nat) (s : List (Int × Int))
    (h : ∀ idx, idx < size → ∀ r ∈ List.range' 1 D,
      ¬ CycleFrom s ((idx : Int) + (r : Int))) :
    ∀ idx, idx < size → ∀ r ∈ List.range' 1 D,
      sfind s (chainIter s s.length ((idx : Int) + (r : Int))) = none :=
  fun idx hidx r hr => chain_terminates_of_no_cycle s _ (h idx hidx r hr)

theorem snadder_chain_terminates_witness :
    sfind [((5 : Int), 6), ((6 : Int), 5)]
      (chainIter [((5 : Int), 6), ((6 : Int), 5)] 2
        (((2 : Nat) : Int) + ((1 : Nat) : Int))) = none :=
  snadder_chain_terminates 3 1 [((5 : Int), 6), ((6 : Int), 5)]
    (by
      intro idx hidx r hr
      have hr1 : r = 1 := by
        rw [show List.range' 1 1 = [1] from rfl] at hr
        simpa using hr
      subst hr1
      apply not_cycleFrom_of_stall
      interval_cases idx <;> decide)
    2 (by omega) 1 (by decide)

lemma eW_solves : IsSolution 1 (make_matrices tabW 1).1 (make_matrices tabW 1).2 eW := by
  intro i hi
  interval_cases i <;>
    norm_num [make_matrices, tabW, eW, Finset.sum_range_succ]

/-- Claim C5: for every board size `N ≥ 1`, `solve` with a one-sided dice, no
snadders, and the default overshoot-still-wins policy returns exactly `N`:
the assembled system forces `e[i] = 1 + e[i+1]` and `e[N] = 0`, so
`e[0] = N`. -/
theorem solve_unit_dice (size : Nat) (x : ℚ) (hN : 1 ≤ size)
    (h : solve size [] 1 x) : x = (size : ℚ) := by
  obtain ⟨tab, e, htab, hsol, hx⟩ := h
  have habs := solution_absorbing size 1 [] false false tab e htab hsol
  have hrec : ∀ i, i < size → e i = 1 + e (i + 1) := by
    intro i hi
    have h1 := solution_row_eq size 1 [] false false tab e htab hsol i hi
    have hr1 : List.range' 1 1 = [1] := rfl
    rw [hr1] at h1
    simp only [List.map_cons, List.map_nil, List.sum_cons, List.sum_nil, add_zero] at h1
    rw [destRaw_empty_toNat, show min (i + 1) size = i + 1 from by omega] at h1
    simpa using h1
  have key : ∀ k, k ≤ size → e (size - k) = (k : ℚ) := by
    intro k
    induction k with
    | zero => intro _; simpa using habs
    | succ k ih =>
      intro hk
      have h2 := hrec (size - (k + 1)) (by omega)
      rw [show size - (k + 1) + 1 = size - k from by omega] at h2
      rw [h2, ih (by omega)]
      push_cast
      ring
  have h0 := key size le_rfl
  rw [Nat.sub_self] at h0
  rw [hx, h0]

theorem solve_unit_dice_witness : (1 : ℚ) = ((1 : Nat) : ℚ) :=
  solve_unit_dice 1 1 le_rfl ⟨tabW, eW, gp_one, eW_solves, by decide⟩

/-- Claim C6: on every board with no snadders and the overshoot-still-wins
policy (`N ≥ 1`, `D ≥ 1`), any solution `e` of the assembled system has
`e[N] = 0` and is strictly decreasing: `e[i+1] < e[i]` for all
`i ∈ 0..N-1`. -/
theorem expected_rolls_strict_decrease (size D : Nat) (tab : Tab) (e : Nat → ℚ)
    (hN : 1 ≤ size) (hD : 1 ≤ D)
    (htab : get_probabilities size [] D false false = some tab)
    (hsol : IsSolution size (make_matrices tab size).1 (make_matrices tab size).2 e) :
    e size = 0 ∧ ∀ i, i < size → e (i + 1) < e i := by
  have habs := solution_absorbing size D [] false false tab e htab hsol
  have hrec : ∀ i, i < size →
      e i = 1 + (∑ r ∈ Finset.Icc 1 D, e (min (i + r) size)) / (D : ℚ) := by
    intro i hi
    have h1 := solution_row_eq size D [] false false tab e htab hsol i hi
    have hmap : (List.range' 1 D).map (fun r => e (destRaw size [] false false i r).toNat)
        = (List.range' 1 D).map (fun r => e (min (i + r) size)) :=
      List.map_congr_left (fun r _ => by rw [destRaw_empty_toNat])
    rw [hmap, range'_map_sum] at h1
    exact h1
  refine ⟨habs, ?_⟩
  have main : ∀ k i, i < size → size - i ≤ k → e (i + 1) < e i := by
    intro k
    induction k with
    | zero => intro i hi hk; exact absurd hk (by omega)
    | succ k ih =>
      intro i hi hk
      by_cases hlast : i + 1 = size
      · have h1 := hrec i hi
        have hz : ∀ r ∈ Finset.Icc 1 D, e (min (i + r) size) = 0 := by
          intro r hr
          obtain ⟨hr1, _⟩ := Finset.mem_Icc.mp hr
          rw [show min (i + r) size = size from by omega, habs]
        rw [Finset.sum_congr rfl hz] at h1
        simp only [Finset.sum_const_zero, zero_div, add_zero] at h1
        rw [hlast, habs, h1]
        norm_num
      · have hi1 : i + 1 < size := by omega
        have hstep : ∀ j, i < j → j < size → e (j + 1) < e j := fun j hj hjs =>
          ih j hjs (by omega)
        have hmono : ∀ a, i < a → ∀ b, a ≤ b → b ≤ size → e b ≤ e a := by
          intro a ha b hab
          induction b, hab using Nat.le_induction with
          | base => intro _; exact le_rfl
          | succ b hb ihb =>
            intro hbs
            exact le_trans (le_of_lt (hstep b (by omega) (by omega))) (ihb (by omega))
        have hterm : ∀ r ∈ Finset.Icc 1 D,
            e (min (i + 1 + r) size) ≤ e (min (i + r) size) := by
          intro r hr
          obtain ⟨hr1, _⟩ := Finset.mem_Icc.mp hr
          exact hmono (min (i + r) size) (by omega) (min (i + 1 + r) size)
            (by omega) (by omega)
        have hstrict : e (min (i + 1 + 1) size) < e (min (i + 1) size) := by
          rw [show min (i + 1) size = i + 1 from by omega,
            show min (i + 1 + 1) size = i + 1 + 1 from by omega]
          exact hstep (i + 1) (by omega) hi1
        have hsum : (∑ r ∈ Finset.Icc 1 D, e (min (i + 1 + r) size))
            < ∑ r ∈ Finset.Icc 1 D, e (min (i + r) size) :=
          Finset.sum_lt_sum hterm ⟨1, Finset.mem_Icc.mpr ⟨le_rfl, hD⟩, hstrict⟩
        rw [hrec i hi, hrec (i + 1) hi1]
        have hD0 : (0 : ℚ) < (D : ℚ) := by
          exact_mod_cast Nat.lt_of_lt_of_le Nat.zero_lt_one hD
        exact add_lt_add_left ((div_lt_div_iff_of_pos_right hD0).mpr hsum) 1
  intro i hi
  exact main (size - i) i hi le_rfl

theorem expected_rolls_strict_decrease_witness : eW 1 = 0 ∧ eW 1 < eW 0 := by
  have h := expected_rolls_strict_decrease 1 1 tabW eW le_rfl le_rfl gp_one eW_solves
  exact ⟨h.1, h.2 0 (by omega)⟩
